import Mathlib

/-!
Verification of the lyrics-to-presentation core of the Service-Tools
repository: the bracket-marker section parsers of `GUI_BASED.py` (strict)
and `scrappingPpptx.py` (lenient), the font-size tier functions, the
batch-mode filename sanitizer, and the per-song processing control flow.

Strings are modelled as `List Char`.  Python's `re.split(r'\[([^\]]+)\]', s)`
is modelled by `reSplit`, which scans for the leftmost occurrence of a
bracketed run `[run]` (with `run` a non-empty run of characters other than
`]`) and returns the interleaved list of text pieces and captured groups.
-/

/-- Python whitespace characters as used by `str.strip()` (ASCII subset). -/
def pyIsSpace (c : Char) : Bool :=
  c = ' ' || c = '\t' || c = '\n' || c = '\r' || c = Char.ofNat 11 || c = Char.ofNat 12

/-- Model of Python `str.strip()`: drop whitespace from both ends. -/
def pyStrip (l : List Char) : List Char :=
  ((l.dropWhile pyIsSpace).reverse.dropWhile pyIsSpace).reverse

/-- Attempt to read a label at the current position, the `[` having just been
consumed: a maximal non-empty run of characters other than `]`, terminated by
`]`.  Returns the captured run and the remaining input.  Mirrors the regex
fragment `([^\]]+)\]` of `re.split(r'\[([^\]]+)\]', ...)`. -/
def tryLabel (l : List Char) : Option (List Char × List Char) :=
  match l.takeWhile (fun c => c != ']'), l.dropWhile (fun c => c != ']') with
  | a :: as, _ :: rest => some (a :: as, rest)
  | _, _ => none

/-- Leftmost match of the pattern `\[([^\]]+)\]`: returns the text before the
match, the captured group, and the text after the match, or `none` when the
pattern does not occur. -/
def findMatch : List Char → Option (List Char × List Char × List Char)
  | [] => none
  | c :: rest =>
    if c = '[' then
      match tryLabel rest with
      | some (lbl, rest') => some ([], lbl, rest')
      | none => (findMatch rest).map (fun q => (c :: q.1, q.2.1, q.2.2))
    else
      (findMatch rest).map (fun q => (c :: q.1, q.2.1, q.2.2))

/-- Fuelled splitter: repeatedly take the leftmost `\[([^\]]+)\]` match,
emitting the preceding text and the captured group, as Python's `re.split`
with a capturing group does. -/
def reSplitFuel : Nat → List Char → List (List Char)
  | 0, l => [l]
  | fuel + 1, l =>
    match findMatch l with
    | none => [l]
    | some (pre, lbl, rest) => pre :: lbl :: reSplitFuel fuel rest

/-- Model of Python `re.split(r'\[([^\]]+)\]', s)`.  The fuel `l.length`
always suffices because each match consumes at least three characters. -/
def reSplit (l : List Char) : List (List Char) :=
  reSplitFuel l.length l

namespace GUI

/-- The body of the loop in `parse_lyrics_sections` of `GUI_BASED.py`:
`for i in range(1, len(parts), 2)` pairs each captured label `parts[i]`
with the following text piece `parts[i+1]` (or `""` when absent), strips
both, and keeps the pair only when the stripped text is non-empty. -/
def strictSections : List (List Char) → List (List Char × List Char)
  | [] => []
  | [_] => []
  | _ :: label :: rest =>
    let txt := pyStrip (rest.headD [])
    if txt.isEmpty then strictSections rest
    else (pyStrip label, txt) :: strictSections rest

/-- `parse_lyrics_sections` of `GUI_BASED.py` (strict mode): text before the
first marker is discarded. -/
def parse_lyrics_sections (lyrics_text : List Char) : List (List Char × List Char) :=
  strictSections (reSplit lyrics_text)

/-- `calculate_font_size` of `GUI_BASED.py`. -/
def calculate_font_size (text_length : Int) : Int :=
  if text_length < 80 then 48
  else if text_length < 120 then 44
  else if text_length < 180 then 40
  else if text_length < 250 then 36
  else if text_length < 350 then 32
  else if text_length < 450 then 28
  else if text_length < 600 then 26
  else if text_length < 800 then 24
  else if text_length < 1000 then 22
  else 20

end GUI

namespace Scrap

/-- The loop of `parse_lyrics_sections` of `scrappingPpptx.py`: enumerate the
split parts; strip each; skip empty parts; odd positions set the pending
label, even positions emit `(pending, part)` (consuming the pending label) or
`("", part)` when no label is pending.  The `parity` flag is `true` exactly
at odd positions of the original enumeration. -/
def lenientAux : Option (List Char) → Bool → List (List Char) → List (List Char × List Char)
  | _, _, [] => []
  | cur, parity, p :: rest =>
    let part := pyStrip p
    if part.isEmpty then lenientAux cur (!parity) rest
    else if parity then lenientAux (some part) (!parity) rest
    else
      match cur with
      | some s => (s, part) :: lenientAux none (!parity) rest
      | none => ([], part) :: lenientAux none (!parity) rest

/-- `parse_lyrics_sections` of `scrappingPpptx.py` (lenient mode): text with
no pending label is kept as an empty-label section. -/
def parse_lyrics_sections (lyrics_text : List Char) : List (List Char × List Char) :=
  lenientAux none false (reSplit lyrics_text)

/-- `calculate_font_size` of `scrappingPpptx.py`. -/
def calculate_font_size (text_length : Int) : Int :=
  if text_length < 100 then 44
  else if text_length < 200 then 36
  else if text_length < 300 then 32
  else if text_length < 500 then 28
  else if text_length < 700 then 24
  else 20

end Scrap

/-- Rendering of a section list back to text: each label re-wrapped in
brackets, each body concatenated after its label. -/
def renderSections (ss : List (List Char × List Char)) : List Char :=
  (ss.map (fun p => '[' :: (p.1 ++ ']' :: p.2))).flatten

/-- Well-formed block lists: each block is a bracketed label (non-empty, free
of `]`) followed by a body span free of `[` and `]`.  `renderSections` of a
well-formed block list is an input "with well-formed bracket markers". -/
def WFblocks (blocks : List (List Char × List Char)) : Prop :=
  ∀ p ∈ blocks, p.1 ≠ [] ∧ (∀ c ∈ p.1, c ≠ ']') ∧ ∀ c ∈ p.2, c ≠ '[' ∧ c ≠ ']'

namespace GUI

/-- Filename sanitization of `process_single_song` in `GUI_BASED.py`:
`"".join(c for c in song_query if c.isalnum() or c in (' ', '-', '_')).strip()`
followed by `.replace(' ', '_')`. -/
def safe_filename (song_query : List Char) : List Char :=
  (pyStrip (song_query.filter
      (fun c => c.isAlphanum || c == ' ' || c == '-' || c == '_'))).map
    (fun c => if c = ' ' then '_' else c)

/-- The fetch result dictionary returned by `search_genius_lyrics`:
`{'url': ..., 'title': ..., 'lyrics': ...}`, with `lyrics` possibly `None`;
the whole result may also be `None` (modelled by `Option LyricsDoc`). -/
structure LyricsDoc where
  url : List Char
  title : List Char
  lyrics : Option (List Char)

/-- Control flow of `process_single_song` of `GUI_BASED.py`, abstracted over
the fetch result.  Returns the success flag handed back to the caller and
the section list passed to the presentation builder (`none` when the builder
step is skipped).  The Python guard `if not result or not result['lyrics']`
also treats an empty lyrics string as missing. -/
def process_single_song (result : Option LyricsDoc) :
    Bool × Option (List (List Char × List Char)) :=
  match result with
  | none => (false, none)
  | some doc =>
    match doc.lyrics with
    | none => (false, none)
    | some lyr =>
      if lyr.isEmpty then (false, none)
      else (true, some (parse_lyrics_sections lyr))

/-- The batch loop of `LyricsGUI.process_songs`: every query is processed and
counted as a success or a failure; no failure aborts the loop. -/
def process_songs (results : List (Option LyricsDoc)) : Nat × Nat :=
  results.foldl
    (fun acc r =>
      if (process_single_song r).1 then (acc.1 + 1, acc.2) else (acc.1, acc.2 + 1))
    (0, 0)

end GUI

/-! ### Lemmas about `pyStrip` -/

lemma head?_dropWhile_false (p : α → Bool) (l : List α) :
    ∀ c, (l.dropWhile p).head? = some c → p c = false := by
  intro c hc
  have h := List.head?_dropWhile_not p l
  rw [hc] at h
  exact h

lemma dropWhile_eq_self_of_head? {p : α → Bool} {l : List α}
    (h : ∀ c, l.head? = some c → p c = false) : l.dropWhile p = l := by
  cases l with
  | nil => rfl
  | cons a as =>
    exact List.dropWhile_cons_of_neg (by simp [h a rfl])

lemma getLast?_of_suffix {l s : List α} (h : s <:+ l) (hs : s ≠ []) :
    s.getLast? = l.getLast? := by
  obtain ⟨t, rfl⟩ := h
  rw [List.getLast?_append, List.getLast?_eq_getLast s hs]
  rfl

lemma mem_pyStrip {c : Char} {l : List Char} (h : c ∈ pyStrip l) : c ∈ l := by
  unfold pyStrip at h
  rw [List.mem_reverse] at h
  have h2 := List.dropWhile_subset _ h
  rw [List.mem_reverse] at h2
  exact List.dropWhile_subset _ h2

lemma pyStrip_idem (l : List Char) : pyStrip (pyStrip l) = pyStrip l := by
  unfold pyStrip
  set A := l.dropWhile pyIsSpace with hA
  set B := A.reverse.dropWhile pyIsSpace with hB
  have hBhead : ∀ c, B.head? = some c → pyIsSpace c = false :=
    head?_dropWhile_false pyIsSpace A.reverse
  have hstep1 : B.reverse.dropWhile pyIsSpace = B.reverse := by
    apply dropWhile_eq_self_of_head?
    intro c hc
    rw [List.head?_reverse] at hc
    rcases hq : B with _ | ⟨b, bs⟩
    · rw [hq] at hc; simp at hc
    · have hBne : B ≠ [] := by rw [hq]; simp
      have : B.getLast? = A.reverse.getLast? :=
        getLast?_of_suffix (List.dropWhile_suffix pyIsSpace) hBne
      rw [hq] at this hc
      rw [this] at hc
      rw [List.getLast?_reverse] at hc
      exact head?_dropWhile_false pyIsSpace l c (hA ▸ hc)
  rw [hstep1, List.reverse_reverse, dropWhile_eq_self_of_head? hBhead]

lemma pyStrip_eq_nil_of_space {l : List Char} (h : ∀ c ∈ l, pyIsSpace c = true) :
    pyStrip l = [] := by
  unfold pyStrip
  have h1 : l.dropWhile pyIsSpace = [] := by
    rw [List.dropWhile_eq_nil_iff]
    exact fun c hc => h c hc
  rw [h1]
  rfl

lemma pyStrip_ne_nil_imp {l : List Char} (h : pyStrip l ≠ []) : l ≠ [] := by
  intro hl
  rw [hl] at h
  exact h rfl

/-! ### Lemmas about `findMatch` and `reSplit` -/

lemma tryLabel_length {l r rest : List Char} (h : tryLabel l = some (r, rest)) :
    rest.length < l.length := by
  unfold tryLabel at h
  split at h
  · rename_i a as x rest' htake hdrop
    simp only [Option.some.injEq, Prod.mk.injEq] at h
    obtain ⟨-, rfl⟩ := h
    have hlen := (List.dropWhile_sublist (p := fun c => c != ']') (l := l)).length_le
    rw [hdrop] at hlen
    simp only [List.length_cons] at hlen
    omega
  · exact Option.noConfusion h

lemma tryLabel_marker {lbl : List Char} (rest : List Char) (hne : lbl ≠ [])
    (hlb : ∀ c ∈ lbl, c ≠ ']') :
    tryLabel (lbl ++ ']' :: rest) = some (lbl, rest) := by
  unfold tryLabel
  have hall : ∀ a ∈ lbl, (a != ']') = true := by
    intro a ha; simpa using hlb a ha
  have htake : (lbl ++ ']' :: rest).takeWhile (fun c => c != ']') = lbl := by
    rw [List.takeWhile_append_of_pos hall]
    simp
  have hdrop : (lbl ++ ']' :: rest).dropWhile (fun c => c != ']') = ']' :: rest := by
    rw [List.dropWhile_append_of_pos hall]
    simp
  rw [htake, hdrop]
  cases lbl with
  | nil => exact absurd rfl hne
  | cons a as => rfl

lemma findMatch_none_of {l : List Char} (h : ∀ c ∈ l, c ≠ '[') : findMatch l = none := by
  induction l with
  | nil => rfl
  | cons a as ih =>
    have ha : ¬a = '[' := h a (by simp)
    simp only [findMatch, if_neg ha]
    rw [ih (fun c hc => h c (List.mem_cons_of_mem _ hc))]
    rfl

lemma findMatch_append_left {b m : List Char} (hb : ∀ c ∈ b, c ≠ '[') :
    findMatch (b ++ m) = (findMatch m).map (fun q => (b ++ q.1, q.2.1, q.2.2)) := by
  induction b with
  | nil => rcases hfm : findMatch m with - | q <;> simp [hfm]
  | cons a as ih =>
    have ha : ¬a = '[' := hb a (by simp)
    simp only [List.cons_append, findMatch, if_neg ha, List.append_eq]
    rw [ih (fun c hc => hb c (List.mem_cons_of_mem _ hc))]
    rcases hfm : findMatch m with - | q <;> simp [hfm]

lemma findMatch_marker {lbl : List Char} (rest : List Char) (hne : lbl ≠ [])
    (hlb : ∀ c ∈ lbl, c ≠ ']') :
    findMatch ('[' :: (lbl ++ ']' :: rest)) = some ([], lbl, rest) := by
  simp only [findMatch]
  rw [tryLabel_marker rest hne hlb]
  simp

lemma map_cons_eq_some {o : Option (List Char × List Char × List Char)} {a : Char}
    {pre lbl rest : List Char}
    (h : o.map (fun q => (a :: q.1, q.2.1, q.2.2)) = some (pre, lbl, rest)) :
    ∃ p, o = some (p, lbl, rest) ∧ pre = a :: p := by
  cases o with
  | none => exact Option.noConfusion h
  | some q =>
    obtain ⟨q1, q2, q3⟩ := q
    simp only [Option.map_some', Option.some.injEq, Prod.mk.injEq] at h
    exact ⟨q1, by simp [h.2.1, h.2.2], h.1.symm⟩

lemma findMatch_length {l : List Char} :
    ∀ {pre lbl rest : List Char}, findMatch l = some (pre, lbl, rest) → rest.length < l.length := by
  induction l with
  | nil => intro pre lbl rest h; exact Option.noConfusion h
  | cons a as ih =>
    intro pre lbl rest h
    simp only [findMatch] at h
    by_cases ha : a = '['
    · rw [if_pos ha] at h
      rcases htl : tryLabel as with - | ⟨lbl', rest'⟩
      · rw [htl] at h
        obtain ⟨p, hp, -⟩ := map_cons_eq_some h
        have := ih hp
        simp only [List.length_cons]
        omega
      · rw [htl] at h
        simp only [Option.some.injEq, Prod.mk.injEq] at h
        obtain ⟨-, -, rfl⟩ := h
        have := tryLabel_length htl
        simp only [List.length_cons]
        omega
    · rw [if_neg ha] at h
      obtain ⟨p, hp, -⟩ := map_cons_eq_some h
      have := ih hp
      simp only [List.length_cons]
      omega

lemma reSplitFuel_congr : ∀ (n m : Nat) (l : List Char),
    l.length ≤ n → l.length ≤ m → reSplitFuel n l = reSplitFuel m l := by
  intro n
  induction n with
  | zero =>
    intro m l hn hm
    have : l = [] := by
      cases l with
      | nil => rfl
      | cons a as => simp at hn
    subst this
    cases m with
    | zero => rfl
    | succ m => rfl
  | succ n ih =>
    intro m l hn hm
    cases m with
    | zero =>
      have : l = [] := by
        cases l with
        | nil => rfl
        | cons a as => simp at hm
      subst this
      rfl
    | succ m =>
      rcases hfm : findMatch l with - | ⟨pre, lbl, rest⟩
      · simp only [reSplitFuel, hfm]
      · have hlt := findMatch_length hfm
        simp only [reSplitFuel, hfm]
        rw [ih m rest (by omega) (by omega)]

lemma reSplit_eq (l : List Char) :
    reSplit l = match findMatch l with
      | none => [l]
      | some (pre, lbl, rest) => pre :: lbl :: reSplit rest := by
  unfold reSplit
  rcases hfm : findMatch l with - | ⟨pre, lbl, rest⟩
  · cases hl : l.length with
    | zero => rfl
    | succ n => simp only [reSplitFuel, hfm]
  · have hlt := findMatch_length hfm
    have hpos : l.length ≠ 0 := by omega
    rcases hl : l.length with - | n
    · exact absurd hl hpos
    · simp only [reSplitFuel, hfm]
      rw [reSplitFuel_congr n rest.length rest (by omega) (by omega)]

lemma reSplit_none {l : List Char} (h : findMatch l = none) : reSplit l = [l] := by
  rw [reSplit_eq, h]

lemma reSplit_some {l pre lbl rest : List Char} (h : findMatch l = some (pre, lbl, rest)) :
    reSplit l = pre :: lbl :: reSplit rest := by
  rw [reSplit_eq, h]

/-! ### Characterization of the parsers on well-formed marker inputs -/

/-- Both parsers, on a well-formed block list, return the blocks with label
and body stripped, the blocks with whitespace-only bodies dropped. -/
def trimBlocks (blocks : List (List Char × List Char)) : List (List Char × List Char) :=
  (blocks.map (fun p => (pyStrip p.1, pyStrip p.2))).filter (fun p => !p.2.isEmpty)

lemma reSplit_render : ∀ (blocks : List (List Char × List Char)), WFblocks blocks →
    ∀ b : List Char, (∀ c ∈ b, c ≠ '[') →
    reSplit (b ++ renderSections blocks) = b :: blocks.flatMap (fun p => [p.1, p.2]) := by
  intro blocks
  induction blocks with
  | nil =>
    intro _ b hb
    simp only [renderSections, List.map_nil, List.flatten_nil, List.append_nil,
      List.flatMap_nil]
    exact reSplit_none (findMatch_none_of hb)
  | cons blk rest ih =>
    intro hwf b hb
    obtain ⟨l, bd⟩ := blk
    obtain ⟨hl, hlb, hbd⟩ := hwf (l, bd) (by simp)
    have hwf' : WFblocks rest := fun p hp => hwf p (List.mem_cons_of_mem _ hp)
    have hre : renderSections ((l, bd) :: rest)
        = '[' :: (l ++ ']' :: (bd ++ renderSections rest)) := by
      simp [renderSections, List.append_assoc]
    rw [hre]
    have hfm : findMatch (b ++ '[' :: (l ++ ']' :: (bd ++ renderSections rest)))
        = some (b, l, bd ++ renderSections rest) := by
      rw [findMatch_append_left hb, findMatch_marker _ hl hlb]
      simp
    rw [reSplit_some hfm, ih hwf' bd (fun c hc => (hbd c hc).1)]
    simp

lemma strictSections_cons (x : List Char) (blocks : List (List Char × List Char)) :
    GUI.strictSections (x :: blocks.flatMap (fun p => [p.1, p.2]))
      = (blocks.map (fun p => (pyStrip p.1, pyStrip p.2))).filter
          (fun p => !p.2.isEmpty) := by
  induction blocks generalizing x with
  | nil => rfl
  | cons blk rest ih =>
    obtain ⟨l, bd⟩ := blk
    simp only [List.flatMap_cons, List.cons_append, List.nil_append, List.map_cons,
      List.filter_cons]
    simp only [GUI.strictSections, List.headD_cons]
    by_cases hbd : (pyStrip bd).isEmpty
    · rw [if_pos hbd, ih bd]
      simp [hbd]
    · rw [if_neg hbd, ih bd]
      simp [hbd]

lemma GUI_parse_render (blocks : List (List Char × List Char)) (hwf : WFblocks blocks) :
    GUI.parse_lyrics_sections (renderSections blocks) = trimBlocks blocks := by
  unfold GUI.parse_lyrics_sections trimBlocks
  have h := reSplit_render blocks hwf [] (by simp)
  rw [List.nil_append] at h
  rw [h]
  exact strictSections_cons [] blocks

lemma lenientAux_cons_empty {cur : Option (List Char)} {parity : Bool}
    {p : List Char} {rest : List (List Char)} (h : pyStrip p = []) :
    Scrap.lenientAux cur parity (p :: rest) = Scrap.lenientAux cur (!parity) rest := by
  simp [Scrap.lenientAux, h]

lemma lenientAux_cons_label {cur : Option (List Char)} {p : List Char}
    {rest : List (List Char)} (h : pyStrip p ≠ []) :
    Scrap.lenientAux cur true (p :: rest)
      = Scrap.lenientAux (some (pyStrip p)) false rest := by
  simp [Scrap.lenientAux, h]

lemma lenientAux_cons_some {s p : List Char} {rest : List (List Char)}
    (h : pyStrip p ≠ []) :
    Scrap.lenientAux (some s) false (p :: rest)
      = (s, pyStrip p) :: Scrap.lenientAux none true rest := by
  simp [Scrap.lenientAux, h]

lemma lenientAux_cons_none {p : List Char} {rest : List (List Char)}
    (h : pyStrip p ≠ []) :
    Scrap.lenientAux none false (p :: rest)
      = ([], pyStrip p) :: Scrap.lenientAux none true rest := by
  simp [Scrap.lenientAux, h]

lemma lenientAux_flatMap : ∀ (blocks : List (List Char × List Char)),
    (∀ p ∈ blocks, pyStrip p.1 ≠ []) →
    ∀ cur, Scrap.lenientAux cur true (blocks.flatMap (fun p => [p.1, p.2]))
      = (blocks.map (fun p => (pyStrip p.1, pyStrip p.2))).filter
          (fun p => !p.2.isEmpty) := by
  intro blocks
  induction blocks with
  | nil => intro _ cur; rfl
  | cons blk rest ih =>
    intro hlab cur
    obtain ⟨l, bd⟩ := blk
    have hl : pyStrip l ≠ [] := hlab (l, bd) (by simp)
    have hlab' : ∀ p ∈ rest, pyStrip p.1 ≠ [] :=
      fun p hp => hlab p (List.mem_cons_of_mem _ hp)
    simp only [List.flatMap_cons, List.cons_append, List.nil_append, List.map_cons,
      List.filter_cons]
    rw [lenientAux_cons_label hl]
    by_cases hbd : pyStrip bd = []
    · rw [lenientAux_cons_empty hbd]
      simp only [Bool.not_false]
      rw [ih hlab' (some (pyStrip l))]
      simp [hbd]
    · rw [lenientAux_cons_some hbd, ih hlab' none]
      simp [hbd]

lemma Scrap_parse_render (blocks : List (List Char × List Char)) (hwf : WFblocks blocks)
    (hlab : ∀ p ∈ blocks, pyStrip p.1 ≠ []) :
    Scrap.parse_lyrics_sections (renderSections blocks) = trimBlocks blocks := by
  unfold Scrap.parse_lyrics_sections trimBlocks
  have h := reSplit_render blocks hwf [] (by simp)
  rw [List.nil_append] at h
  rw [h]
  have hstep : Scrap.lenientAux none false ([] :: blocks.flatMap (fun p => [p.1, p.2]))
      = Scrap.lenientAux none true (blocks.flatMap (fun p => [p.1, p.2])) := by
    simp [Scrap.lenientAux, pyStrip]
  rw [hstep]
  exact lenientAux_flatMap blocks hlab none

/-! ### Invariant lemmas: emitted sections have non-empty, trimmed bodies -/

lemma strictSections_mem : ∀ (parts : List (List Char)) (p : List Char × List Char),
    p ∈ GUI.strictSections parts → p.2 ≠ [] ∧ pyStrip p.2 = p.2
  | [], p, h => by simp [GUI.strictSections] at h
  | [x], p, h => by simp [GUI.strictSections] at h
  | x :: label :: rest, p, h => by
    simp only [GUI.strictSections] at h
    by_cases htxt : (pyStrip (rest.headD [])).isEmpty
    · rw [if_pos htxt] at h
      exact strictSections_mem rest p h
    · rw [if_neg htxt] at h
      rcases List.mem_cons.mp h with h | h
      · subst h
        exact ⟨List.isEmpty_eq_false.mp (Bool.not_eq_true _ ▸ htxt),
          pyStrip_idem (rest.headD [])⟩
      · exact strictSections_mem rest p h

lemma lenientAux_mem : ∀ (cur : Option (List Char)) (parity : Bool)
    (parts : List (List Char)) (p : List Char × List Char),
    p ∈ Scrap.lenientAux cur parity parts → p.2 ≠ [] ∧ pyStrip p.2 = p.2
  | _, _, [], p, h => by simp [Scrap.lenientAux] at h
  | cur, parity, q :: rest, p, h => by
    by_cases hq : pyStrip q = []
    · rw [lenientAux_cons_empty hq] at h
      exact lenientAux_mem cur (!parity) rest p h
    · cases parity with
      | true =>
        rw [lenientAux_cons_label hq] at h
        exact lenientAux_mem (some (pyStrip q)) false rest p h
      | false =>
        cases cur with
        | none =>
          rw [lenientAux_cons_none hq] at h
          rcases List.mem_cons.mp h with h | h
          · subst h
            exact ⟨hq, pyStrip_idem q⟩
          · exact lenientAux_mem none true rest p h
        | some s =>
          rw [lenientAux_cons_some hq] at h
          rcases List.mem_cons.mp h with h | h
          · subst h
            exact ⟨hq, pyStrip_idem q⟩
          · exact lenientAux_mem none true rest p h

/-! ### Further auxiliary lemmas -/

lemma flatten_map_filter (L : List (List Char × List Char)) :
    ((L.filter (fun p => !p.2.isEmpty)).map (fun p => p.2)).flatten
      = (L.map (fun p => p.2)).flatten := by
  induction L with
  | nil => rfl
  | cons q rest ih =>
    by_cases hq : q.2.isEmpty
    · have hq2 : q.2 = [] := List.isEmpty_eq_true.mp hq
      simp [List.filter_cons, hq, hq2, ih]
    · simp [List.filter_cons, hq, ih]

lemma flatten_filter_ne_nil (L : List (List Char)) :
    (L.filter (fun b => !b.isEmpty)).flatten = L.flatten := by
  induction L with
  | nil => rfl
  | cons b rest ih =>
    by_cases hb : b.isEmpty
    · have hb2 : b = [] := List.isEmpty_eq_true.mp hb
      simp [List.filter_cons, hb, hb2, ih]
    · simp [List.filter_cons, hb, ih]

/-- The bodies emitted by the lenient loop do not depend on the labels at
all: whatever the pending label is and whether any label survives trimming,
every body span that is non-empty after trimming is emitted exactly once, in
order.  (A whitespace-only label is skipped by the empty-part check, a
genuine label merely replaces the pending one; neither touches the body
stream.) -/
lemma lenientAux_bodies : ∀ (blocks : List (List Char × List Char))
    (cur : Option (List Char)),
    (Scrap.lenientAux cur true (blocks.flatMap (fun p => [p.1, p.2]))).map (fun p => p.2)
      = (blocks.map (fun p => pyStrip p.2)).filter (fun b => !b.isEmpty) := by
  intro blocks
  induction blocks with
  | nil => intro cur; rfl
  | cons blk rest ih =>
    intro cur
    obtain ⟨l, bd⟩ := blk
    simp only [List.flatMap_cons, List.cons_append, List.nil_append, List.map_cons,
      List.filter_cons]
    by_cases hl : pyStrip l = []
    · rw [lenientAux_cons_empty hl]
      simp only [Bool.not_true]
      by_cases hbd : pyStrip bd = []
      · rw [lenientAux_cons_empty hbd]
        simp only [Bool.not_false]
        rw [ih cur]
        simp [hbd]
      · cases cur with
        | none =>
          rw [lenientAux_cons_none hbd]
          simp only [List.map_cons]
          rw [ih none]
          simp [hbd]
        | some s =>
          rw [lenientAux_cons_some hbd]
          simp only [List.map_cons]
          rw [ih none]
          simp [hbd]
    · rw [lenientAux_cons_label hl]
      by_cases hbd : pyStrip bd = []
      · rw [lenientAux_cons_empty hbd]
        simp only [Bool.not_false]
        rw [ih (some (pyStrip l))]
        simp [hbd]
      · rw [lenientAux_cons_some hbd]
        simp only [List.map_cons]
        rw [ih none]
        simp [hbd]

lemma pyIsSpace_not_bracket {c : Char} (h : pyIsSpace c = true) : c ≠ '[' ∧ c ≠ ']' := by
  constructor <;> rintro rfl <;> exact absurd h (by decide)

lemma process_songs_go : ∀ (rs : List (Option GUI.LyricsDoc)) (acc : Nat × Nat),
    (rs.foldl (fun acc r => if (GUI.process_single_song r).1
        then (acc.1 + 1, acc.2) else (acc.1, acc.2 + 1)) acc).1
      + (rs.foldl (fun acc r => if (GUI.process_single_song r).1
        then (acc.1 + 1, acc.2) else (acc.1, acc.2 + 1)) acc).2
      = acc.1 + acc.2 + rs.length := by
  intro rs
  induction rs with
  | nil => intro acc; simp
  | cons r rest ih =>
    intro acc
    simp only [List.foldl_cons, List.length_cons]
    by_cases hr : (GUI.process_single_song r).1
    · rw [if_pos hr, ih (acc.1 + 1, acc.2)]
      omega
    · rw [if_neg hr, ih (acc.1, acc.2 + 1)]
      omega

lemma safe_filename_chars (q : List Char) :
    ∀ c ∈ GUI.safe_filename q, c.isAlphanum = true ∨ c = '-' ∨ c = '_' := by
  intro c hc
  unfold GUI.safe_filename at hc
  rw [List.mem_map] at hc
  obtain ⟨d, hd, rfl⟩ := hc
  have hd2 := mem_pyStrip hd
  have hpred := (List.mem_filter.mp hd2).2
  by_cases hsp : d = ' '
  · subst hsp
    simp
  · rw [if_neg hsp]
    simp only [Bool.or_eq_true, beq_iff_eq] at hpred
    rcases hpred with ((h | h) | h) | h
    · exact Or.inl h
    · exact absurd h hsp
    · exact Or.inr (Or.inl h)
    · exact Or.inr (Or.inr h)

/-! ### Stability of `trimBlocks` -/

lemma map_trim_eq_self : ∀ (S : List (List Char × List Char)),
    (∀ p ∈ S, pyStrip p.1 = p.1 ∧ pyStrip p.2 = p.2) →
    S.map (fun p => (pyStrip p.1, pyStrip p.2)) = S := by
  intro S
  induction S with
  | nil => intro _; rfl
  | cons q rest ih =>
    intro h
    obtain ⟨h1, h2⟩ := h q (by simp)
    simp only [List.map_cons, h1, h2]
    rw [ih (fun p hp => h p (List.mem_cons_of_mem _ hp))]

lemma trimBlocks_mem {blocks : List (List Char × List Char)} {p : List Char × List Char}
    (hp : p ∈ trimBlocks blocks) :
    ∃ q, q ∈ blocks ∧ p = (pyStrip q.1, pyStrip q.2) := by
  have h := List.mem_of_mem_filter hp
  rw [List.mem_map] at h
  obtain ⟨q, hq, hq2⟩ := h
  exact ⟨q, hq, hq2.symm⟩

lemma trimBlocks_stable {blocks : List (List Char × List Char)} (hwf : WFblocks blocks)
    (hlab : ∀ p ∈ blocks, pyStrip p.1 ≠ []) :
    WFblocks (trimBlocks blocks) ∧ (∀ p ∈ trimBlocks blocks, pyStrip p.1 ≠ []) ∧
      trimBlocks (trimBlocks blocks) = trimBlocks blocks := by
  refine ⟨?_, ?_, ?_⟩
  · intro p hp
    obtain ⟨q, hq, rfl⟩ := trimBlocks_mem hp
    obtain ⟨-, hq2, hq3⟩ := hwf q hq
    exact ⟨hlab q hq, fun c hc => hq2 c (mem_pyStrip hc),
      fun c hc => hq3 c (mem_pyStrip hc)⟩
  · intro p hp
    obtain ⟨q, hq, rfl⟩ := trimBlocks_mem hp
    simpa [pyStrip_idem] using hlab q hq
  · unfold trimBlocks
    rw [map_trim_eq_self]
    · exact List.filter_eq_self.mpr fun p hp => (List.mem_filter.mp hp).2
    · intro p hp
      obtain ⟨q, hq, rfl⟩ := trimBlocks_mem hp
      exact ⟨pyStrip_idem q.1, pyStrip_idem q.2⟩

/-! ### The claims -/

set_option maxHeartbeats 1600000 in
/-- Claim C1: for every integer character count (including zero and negative
values, which fall into the first tier), the font-size function of
`GUI_BASED.py` returns the tier table's value: <80 → 48, <120 → 44,
<180 → 40, <250 → 36, <350 → 32, <450 → 28, <600 → 26, <800 → 24,
<1000 → 22, otherwise 20; in particular 50 ↦ 48, 79 ↦ 48, 80 ↦ 44 and
10000 ↦ 20. -/
theorem claim_C1_font_size_tiers (n : Int) :
    (n < 80 → GUI.calculate_font_size n = 48) ∧
    (80 ≤ n → n < 120 → GUI.calculate_font_size n = 44) ∧
    (120 ≤ n → n < 180 → GUI.calculate_font_size n = 40) ∧
    (180 ≤ n → n < 250 → GUI.calculate_font_size n = 36) ∧
    (250 ≤ n → n < 350 → GUI.calculate_font_size n = 32) ∧
    (350 ≤ n → n < 450 → GUI.calculate_font_size n = 28) ∧
    (450 ≤ n → n < 600 → GUI.calculate_font_size n = 26) ∧
    (600 ≤ n → n < 800 → GUI.calculate_font_size n = 24) ∧
    (800 ≤ n → n < 1000 → GUI.calculate_font_size n = 22) ∧
    (1000 ≤ n → GUI.calculate_font_size n = 20) ∧
    GUI.calculate_font_size 50 = 48 ∧ GUI.calculate_font_size 79 = 48 ∧
    GUI.calculate_font_size 80 = 44 ∧ GUI.calculate_font_size 10000 = 20 := by
  unfold GUI.calculate_font_size
  refine ⟨?_, ?_, ?_, ?_, ?_, ?_, ?_, ?_, ?_, ?_, by decide, by decide, by decide, by decide⟩ <;>
    · intros
      split_ifs <;> omega

theorem claim_C1_font_size_tiers_wit :
    (80 : Int) ≤ 100 ∧ (100 : Int) < 120 ∧ GUI.calculate_font_size 100 = 44 :=
  ⟨by decide, by decide, (claim_C1_font_size_tiers 100).2.1 (by decide) (by decide)⟩

set_option maxHeartbeats 3200000 in
/-- Claim C2: both font-size functions (`GUI_BASED.py` and
`scrappingPpptx.py`) are total, deterministic and monotonically
non-increasing: `a ≤ b` implies `sizeFor a ≥ sizeFor b`. -/
theorem claim_C2_font_size_monotone (a b : Int) (h : a ≤ b) :
    GUI.calculate_font_size b ≤ GUI.calculate_font_size a ∧
    Scrap.calculate_font_size b ≤ Scrap.calculate_font_size a := by
  unfold GUI.calculate_font_size Scrap.calculate_font_size
  constructor <;> · split_ifs <;> omega

theorem claim_C2_font_size_monotone_wit :
    (3 : Int) ≤ 500 ∧ GUI.calculate_font_size 500 ≤ GUI.calculate_font_size 3 ∧
      Scrap.calculate_font_size 500 ≤ Scrap.calculate_font_size 3 :=
  ⟨by decide, (claim_C2_font_size_monotone 3 500 (by decide)).1,
    (claim_C2_font_size_monotone 3 500 (by decide)).2⟩

/-- Claim C3: for every input string, every section emitted by either parser
(strict `GUI_BASED.py` or lenient `scrappingPpptx.py`) has a body that is
non-empty after trimming; whitespace-only spans are dropped and produce no
section. -/
theorem claim_C3_nonempty_bodies (l : List Char) :
    (∀ p ∈ GUI.parse_lyrics_sections l, pyStrip p.2 ≠ []) ∧
    (∀ p ∈ Scrap.parse_lyrics_sections l, pyStrip p.2 ≠ []) := by
  constructor
  · intro p hp
    obtain ⟨hne, hidem⟩ := strictSections_mem (reSplit l) p hp
    rw [hidem]
    exact hne
  · intro p hp
    obtain ⟨hne, hidem⟩ := lenientAux_mem none false (reSplit l) p hp
    rw [hidem]
    exact hne

theorem claim_C3_nonempty_bodies_wit :
    ("Verse".toList, "Body".toList) ∈ GUI.parse_lyrics_sections ("[Verse]\nBody".toList) ∧
    pyStrip "Body".toList ≠ [] :=
  ⟨by decide,
    (claim_C3_nonempty_bodies ("[Verse]\nBody".toList)).1
      ("Verse".toList, "Body".toList) (by decide)⟩

/-- Claim C4: on the input `"Intro text\n[Verse]\nBody"` the lenient parser
returns `[("", "Intro text"), ("Verse", "Body")]` while the strict parser
returns `[("Verse", "Body")]`: the strict parser discards leading text
before the first marker, the lenient parser keeps it with an empty label. -/
theorem claim_C4_leading_text :
    Scrap.parse_lyrics_sections ("Intro text\n[Verse]\nBody".toList)
      = [([], "Intro text".toList), ("Verse".toList, "Body".toList)] ∧
    GUI.parse_lyrics_sections ("Intro text\n[Verse]\nBody".toList)
      = [("Verse".toList, "Body".toList)] := by
  decide

/-- Claim C5: for every input with well-formed bracket markers (a sequence of
`[label]` markers each followed by a body span), the bodies returned by
either parser, concatenated in order, reconstruct the original non-label
text up to trimming at span boundaries.  Neither parser needs any condition
on the labels: the lenient parser emits every non-whitespace body span
whether or not its label survives trimming. -/
theorem claim_C5_reconstruction (blocks : List (List Char × List Char))
    (hwf : WFblocks blocks) :
    ((GUI.parse_lyrics_sections (renderSections blocks)).map (fun p => p.2)).flatten
      = (blocks.map (fun p => pyStrip p.2)).flatten ∧
    ((Scrap.parse_lyrics_sections (renderSections blocks)).map (fun p => p.2)).flatten
      = (blocks.map (fun p => pyStrip p.2)).flatten := by
  constructor
  · rw [GUI_parse_render blocks hwf]
    unfold trimBlocks
    rw [flatten_map_filter, List.map_map]
    rfl
  · unfold Scrap.parse_lyrics_sections
    have h := reSplit_render blocks hwf [] (by simp)
    rw [List.nil_append] at h
    rw [h]
    have hstep : Scrap.lenientAux none false ([] :: blocks.flatMap (fun p => [p.1, p.2]))
        = Scrap.lenientAux none true (blocks.flatMap (fun p => [p.1, p.2])) := by
      simp [Scrap.lenientAux, pyStrip]
    rw [hstep, lenientAux_bodies blocks none, flatten_filter_ne_nil]

theorem claim_C5_reconstruction_wit :
    WFblocks [(" ".toList, "body1 ".toList), ("L".toList, " body2".toList)] ∧
    ((Scrap.parse_lyrics_sections
        (renderSections [(" ".toList, "body1 ".toList), ("L".toList, " body2".toList)])).map
        (fun p => p.2)).flatten
      = ([(" ".toList, "body1 ".toList), ("L".toList, " body2".toList)].map
          (fun p => pyStrip p.2)).flatten :=
  ⟨by unfold WFblocks; decide,
    (claim_C5_reconstruction [(" ".toList, "body1 ".toList), ("L".toList, " body2".toList)]
      (by unfold WFblocks; decide)).2⟩

/-- Claim C6, counterexample: parsing is not idempotent through
reconstruction on all inputs.  For the strict parser, `"[ ]x"` parses to a
single section with empty label; re-wrapping that label yields `"[]x"`,
which contains no marker (the regex needs a non-empty group), so reparsing
yields `[]`.  For the lenient parser, `"x"` parses to `[("", "x")]`, which
renders to `"[]x"` and reparses to `[("", "[]x")]`. -/
theorem claim_C6_idempotence_cex :
    GUI.parse_lyrics_sections (renderSections (GUI.parse_lyrics_sections ("[ ]x".toList)))
      ≠ GUI.parse_lyrics_sections ("[ ]x".toList) ∧
    Scrap.parse_lyrics_sections
        (renderSections (Scrap.parse_lyrics_sections ("x".toList)))
      ≠ Scrap.parse_lyrics_sections ("x".toList) := by
  decide

/-- Claim C6, amended: for inputs made of well-formed `[label]body` blocks
whose labels survive trimming, parsing the rendered reconstruction of the
parse yields the same section sequence, for both parsers. -/
theorem claim_C6_idempotence_amended (blocks : List (List Char × List Char))
    (hwf : WFblocks blocks) (hlab : ∀ p ∈ blocks, pyStrip p.1 ≠ []) :
    GUI.parse_lyrics_sections
        (renderSections (GUI.parse_lyrics_sections (renderSections blocks)))
      = GUI.parse_lyrics_sections (renderSections blocks) ∧
    Scrap.parse_lyrics_sections
        (renderSections (Scrap.parse_lyrics_sections (renderSections blocks)))
      = Scrap.parse_lyrics_sections (renderSections blocks) := by
  obtain ⟨hwfS, hlabS, hidemS⟩ := trimBlocks_stable hwf hlab
  constructor
  · rw [GUI_parse_render blocks hwf, GUI_parse_render (trimBlocks blocks) hwfS, hidemS]
  · rw [Scrap_parse_render blocks hwf hlab,
      Scrap_parse_render (trimBlocks blocks) hwfS hlabS, hidemS]

theorem claim_C6_idempotence_amended_wit :
    WFblocks [("Verse".toList, " Body ".toList)] ∧
    GUI.parse_lyrics_sections
        (renderSections (GUI.parse_lyrics_sections
          (renderSections [("Verse".toList, " Body ".toList)])))
      = GUI.parse_lyrics_sections (renderSections [("Verse".toList, " Body ".toList)]) :=
  ⟨by unfold WFblocks; decide,
    (claim_C6_idempotence_amended [("Verse".toList, " Body ".toList)]
      (by unfold WFblocks; decide) (by decide)).1⟩

/-- Claim C7: on `"[Verse 1]\nHello\nWorld\n\n[Chorus]\nSing out"` the strict
parser returns exactly `[("Verse 1", "Hello\nWorld"), ("Chorus", "Sing out")]`:
labels trimmed, bodies trimmed, order preserved. -/
theorem claim_C7_two_sections :
    GUI.parse_lyrics_sections ("[Verse 1]\nHello\nWorld\n\n[Chorus]\nSing out".toList)
      = [("Verse 1".toList, "Hello\nWorld".toList),
         ("Chorus".toList, "Sing out".toList)] := by
  decide

/-- Claim C8: the batch-mode output filename derived from a query keeps only
alphanumeric characters, spaces, hyphens and underscores, trims surrounding
whitespace, and replaces every remaining space with an underscore, so the
result contains only alphanumerics, hyphens and underscores; the query
`"Way Maker! (Live)"` sanitizes to `"Way_Maker_Live"`. -/
theorem claim_C8_safe_filename :
    (∀ (q : List Char), ∀ c ∈ GUI.safe_filename q,
      c.isAlphanum = true ∨ c = '-' ∨ c = '_') ∧
    GUI.safe_filename ("Way Maker! (Live)".toList) = "Way_Maker_Live".toList :=
  ⟨safe_filename_chars, by decide⟩

theorem claim_C8_safe_filename_wit :
    'W' ∈ GUI.safe_filename ("Way Maker! (Live)".toList) ∧
    ('W'.isAlphanum = true ∨ 'W' = '-' ∨ 'W' = '_') :=
  ⟨by decide, claim_C8_safe_filename.1 ("Way Maker! (Live)".toList) 'W' (by decide)⟩

/-- Claim C9: when the fetch returns nothing, or a document whose lyrics
field is absent, `process_single_song` skips the presentation-builder step
(no section list is handed to the builder), returns the failure signal
`false`, and the batch loop still processes every query: the success and
failure counts always sum to the number of queries. -/
theorem claim_C9_failed_fetch (r : Option GUI.LyricsDoc)
    (h : r = none ∨ ∃ d, r = some d ∧ d.lyrics = none) :
    GUI.process_single_song r = (false, none) ∧
    ∀ rs : List (Option GUI.LyricsDoc),
      (GUI.process_songs rs).1 + (GUI.process_songs rs).2 = rs.length := by
  constructor
  · rcases h with rfl | ⟨d, rfl, hd⟩
    · rfl
    · simp [GUI.process_single_song, hd]
  · intro rs
    have h0 := process_songs_go rs (0, 0)
    simpa [GUI.process_songs] using h0

theorem claim_C9_failed_fetch_wit :
    GUI.process_single_song none = (false, none) :=
  (claim_C9_failed_fetch none (Or.inl rfl)).1

/-- Claim C10: in the lenient parser, when two bracket labels appear
consecutively with only whitespace between them, the first label is
discarded and produces no section: the span between them trims to empty and
is skipped, the second label overwrites the pending one, and the following
body is attributed only to the second label. -/
theorem claim_C10_consecutive_labels (l1 l2 ws body : List Char)
    (h1 : pyStrip l1 ≠ []) (h1b : ∀ c ∈ l1, c ≠ ']')
    (h2 : pyStrip l2 ≠ []) (h2b : ∀ c ∈ l2, c ≠ ']')
    (hws : ∀ c ∈ ws, pyIsSpace c = true)
    (hbody : ∀ c ∈ body, c ≠ '[' ∧ c ≠ ']') :
    Scrap.parse_lyrics_sections
        ('[' :: (l1 ++ ']' :: (ws ++ '[' :: (l2 ++ ']' :: body))))
      = if pyStrip body = [] then [] else [(pyStrip l2, pyStrip body)] := by
  have hinput : '[' :: (l1 ++ ']' :: (ws ++ '[' :: (l2 ++ ']' :: body)))
      = renderSections [(l1, ws), (l2, body)] := by
    simp [renderSections]
  have hwf : WFblocks [(l1, ws), (l2, body)] := by
    intro p hp
    simp only [List.mem_cons, List.not_mem_nil, or_false] at hp
    rcases hp with rfl | rfl
    · exact ⟨pyStrip_ne_nil_imp h1, h1b,
        fun c hc => pyIsSpace_not_bracket (hws c hc)⟩
    · exact ⟨pyStrip_ne_nil_imp h2, h2b, hbody⟩
  have hlab : ∀ p ∈ [(l1, ws), (l2, body)], pyStrip p.1 ≠ [] := by
    intro p hp
    simp only [List.mem_cons, List.not_mem_nil, or_false] at hp
    rcases hp with rfl | rfl
    · exact h1
    · exact h2
  rw [hinput, Scrap_parse_render _ hwf hlab]
  unfold trimBlocks
  have hwsnil := pyStrip_eq_nil_of_space hws
  by_cases hbd : pyStrip body = []
  · simp [hwsnil, hbd]
  · simp [hwsnil, hbd]

theorem claim_C10_consecutive_labels_wit :
    pyStrip "\nHi".toList ≠ [] ∧
    Scrap.parse_lyrics_sections
        ('[' :: ("Verse".toList ++ ']' ::
          ("\n".toList ++ '[' :: ("Chorus".toList ++ ']' :: "\nHi".toList))))
      = if pyStrip "\nHi".toList = [] then []
        else [(pyStrip "Chorus".toList, pyStrip "\nHi".toList)] :=
  ⟨by decide,
    claim_C10_consecutive_labels "Verse".toList "Chorus".toList "\n".toList "\nHi".toList
      (by decide) (by decide) (by decide) (by decide) (by decide) (by decide)⟩
